import Mathlib

/-!
Verification of the DeLTA per-region processing engine (`delta/pipeline.py`).

The repository source under verification is `delta/pipeline.py` (classes
`Pipeline`, `Position`, `ROI`).  The helper module `delta/utilities.py`
(window tiling and stitching, the `Lineage` class, score thresholding,
drift correction, pole extraction) belongs to the same package but its
source is not available here; those operations are modelled from the
specification, and each such definition carries a doc comment starting
with `Modelled from the spec:`.  Everything else is translated directly
from `pipeline.py`.

Conventions of the shallow embedding:
* images are pixel maps `Nat → Nat → ℚ` with explicit dimensions
  (intensities are rescaled floats in the source; ℚ stands in for them);
* the mutable per-ROI state (`img_stack`, `seg_stack`, `lineage`) becomes
  an explicit state record, and methods become state-passing functions;
* code that raises becomes `Except`;
* on the tracking side a segmentation mask is consumed only through its
  detected connected components (`cv2.findContours` / `utils.getpoles`,
  an external image-processing collaborator), so there a mask is
  represented by its ordered list of components.
-/

/-- A 2D image: dimensions plus a pixel map (out-of-range pixels are
irrelevant; operations guard with the dimensions). -/
structure Image where
  h : Nat
  w : Nat
  pix : Nat → Nat → ℚ

/-- A window (tile) cropped out of a larger image, tagged with its
placement (row offset `y0`, column offset `x0`) in the source image. -/
structure Window where
  y0 : Nat
  x0 : Nat
  pix : Nat → Nat → ℚ

/-- Number of tiles of size `ts` needed to cover length `n`
(ceiling division; partial trailing tiles counted). -/
def nTiles (n ts : Nat) : Nat := (n + ts - 1) / ts

/-- The tile of `img` at tile-row `i`, tile-column `j` for tile size `ts`:
a full `ts × ts` window placed at `(i*ts, j*ts)`; pixels beyond the
source bounds are zero-padded (the tile is never cropped short). -/
def mkWindow (img : Image) (ts i j : Nat) : Window :=
  { y0 := i * ts
    x0 := j * ts
    pix := fun r c =>
      if i * ts + r < img.h ∧ j * ts + c < img.w then
        img.pix (i * ts + r) (j * ts + c)
      else 0 }

/-- Modelled from the spec: `delta.utilities.create_windows` (called by
`ROI.get_segmentation_inputs`, pipeline.py 784-791) is not under `src/`.
Tiling contract (spec 4.2): an ordered sequence of fixed-size tiles fully
covering the image, placed at non-overlapping offsets that are multiples
of the tile size, zero-padded at the trailing edges, each tile recording
its placement for reassembly. -/
def create_windows (img : Image) (ts : Nat) : List Window :=
  (List.range (nTiles img.h ts)).flatMap
    (fun i => (List.range (nTiles img.w ts)).map (fun j => mkWindow img ts i j))

/-- The placement of window `wd` (for tile size `ts`) covers pixel `(r, c)`. -/
abbrev coversW (ts : Nat) (wd : Window) (r c : Nat) : Prop :=
  wd.y0 ≤ r ∧ r < wd.y0 + ts ∧ wd.x0 ≤ c ∧ c < wd.x0 + ts

/-- Write one window into a canvas at its recorded placement
(pixels outside the window's placement keep the canvas value). -/
def writeWindow (ts : Nat) (base : Nat → Nat → ℚ) (wd : Window) : Nat → Nat → ℚ :=
  fun r c =>
    if coversW ts wd r c then wd.pix (r - wd.y0) (c - wd.x0) else base r c

/-- Modelled from the spec: `delta.utilities.stitch_pic` (called by
`ROI.process_segmentation_outputs`, pipeline.py 824-828) is not under
`src/`.  Stitching contract (spec 4.2): write each tile into its recorded
placement over a fresh canvas; tiling is non-overlapping by construction. -/
def stitch_pic (ws : List Window) (ts : Nat) : Nat → Nat → ℚ :=
  ws.foldl (writeWindow ts) (fun _ _ => 0)

/-- Tile-then-stitch round trip as performed by the pipeline: tile `img`
(`ROI.get_segmentation_inputs`), stitch the tiles back, then crop the
stitched canvas to the original dimensions, embedding the crop
`y = y[:shape[0], :shape[1]]` of `ROI.process_segmentation_outputs`
(pipeline.py 833; all frames of one ROI share the ROI box dimensions). -/
def reconstruct (img : Image) (ts : Nat) : Image :=
  { h := img.h
    w := img.w
    pix := fun r c =>
      if r < img.h ∧ c < img.w then stitch_pic (create_windows img ts) ts r c
      else 0 }

/-- Embeds the mask-storing block of `ROI.process_segmentation_outputs`
(pipeline.py 838-843): when a frame index is given, the segmentation
stack is extended with `None` placeholders up to that index if too short,
then the processed mask is stored at the index. -/
def store_seg {α : Type} (stack : List (Option α)) (frame : Nat) (y : α) :
    List (Option α) :=
  (if stack.length ≤ frame then
    stack ++ List.replicate (frame + 1 - stack.length) none
  else stack).set frame (some y)

/-- A detected connected component of a segmentation mask (abstract
descriptor; contour geometry is external `cv2` detail). -/
abbrev Cell := Nat

/-- Modelled from the spec: on the tracking side a segmentation mask is
consumed only through its ordered list of detected connected components
(`cv2.findContours` sorted along Y / `utils.getpoles`); the pixel-level
detector is an external collaborator, so a mask is represented by that
component list. -/
abbrev Mask := List Cell

/-- Modelled from the spec: `delta.utilities.getpoles` returns one pole
descriptor per connected component of the mask. -/
def getpoles (m : Mask) : List Cell := m

/-- One live-cell entry of a frame's attribution list:
(cell id, parent cell id or `none` for an orphan). -/
abbrev CellEntry := Nat × Option Nat

/-- One frame's cell-to-parent attribution list. -/
abbrev FrameEntries := List CellEntry

/-- Modelled from the spec: `delta.utilities.Lineage` (spec 4.5 and the
data model of spec 3).  Per-frame attribution lists (one entry per live
cell, holding its parent or `none`), a sparse per-cell-per-frame feature
mapping, and a monotone supply of fresh cell ids (ids are assigned once
and never reused). -/
structure Lineage where
  frames : List FrameEntries
  features : List ((Nat × Nat × String) × ℚ)
  nextid : Nat
deriving DecidableEq

/-- Append entries to frame `f`'s list, creating empty frame lists up to
`f` first when the sequence is too short. -/
def appendAt : List FrameEntries → Nat → FrameEntries → List FrameEntries
  | [], 0, new => [new]
  | [], f + 1, new => [] :: appendAt [] f new
  | es :: rest, 0, new => (es ++ new) :: rest
  | es :: rest, f + 1, new => es :: appendAt rest f new

/-- Modelled from the spec: `Lineage.update` as used by `pipeline.py`.
With parent `p = some o` it records one child entry per element of
`attrib` at frame `f`, each pointing to parent `o` (`registerAttribution`
in spec 4.5; two or more children record a division, each child a fresh
id — spec 8, end-to-end scenario).  With `p = none` and `attrib = [n]` it
registers one orphan (`registerOrphan`).  With empty `attrib` it only
materialises the frame's list (a lost cell contributes no children). -/
def Lineage.update (l : Lineage) (p : Option Nat) (f : Nat) (attrib : List Nat) :
    Lineage :=
  { frames :=
      appendAt l.frames f ((List.range attrib.length).map (fun i => (l.nextid + i, p)))
    features := l.features
    nextid := l.nextid + attrib.length }

/-- The attribution list recorded at frame `f` (empty when absent). -/
def Lineage.entriesAt (l : Lineage) (f : Nat) : FrameEntries := l.frames.getD f []

/-- The per-frame lists of live cell ids (`Lineage.cellnumbers` in the
source, read by `ROI.get_tracking_inputs` and `extract_features`). -/
def Lineage.cellnumbers (l : Lineage) : List (List Nat) :=
  l.frames.map (fun es => es.map Prod.fst)

/-- Overwrite-or-insert for the sparse feature mapping: any previous
value stored under the same (cell, frame, feature) key is replaced. -/
def setFeat (fs : List ((Nat × Nat × String) × ℚ)) (key : Nat × Nat × String)
    (v : ℚ) : List ((Nat × Nat × String) × ℚ) :=
  fs.filter (fun e => !decide (e.1 = key)) ++ [(key, v)]

/-- Modelled from the spec: `Lineage.setvalue(cell, frame, feature, value)`
(spec 4.5 `setFeature`): stores a single sparse measurement, silently
overwriting any previous value for the same key. -/
def Lineage.setvalue (l : Lineage) (cell f : Nat) (feat : String) (v : ℚ) :
    Lineage :=
  { l with features := setFeat l.features (cell, f, feat) v }

/-- The tracking attribution threshold τ = 0.5 (spec 4.4). -/
def tau : ℚ := mkRat 1 2

/-- Modelled from the spec: `delta.utilities.getAttributions` (called by
`ROI.process_tracking_outputs`, pipeline.py 991).  Every entry of the
score matrix is thresholded at τ = 0.5: `A[o][n] = 1` iff `S[o][n] > τ`,
with no global optimal assignment. -/
def getAttributions (S : List (List ℚ)) : List (List Nat) :=
  S.map (fun row => row.map (fun s => if tau < s then 1 else 0))

/-- Indices of the nonzero entries of a matrix row, in increasing order
(`numpy.nonzero` on `attributions[o, :]`, pipeline.py 999). -/
def nonzeroIdx (row : List Nat) : List Nat :=
  (List.range row.length).filter (fun n => row.getD n 0 != 0)

/-- Number of columns of the attribution matrix
(`attributions.shape[1]`, pipeline.py 1005). -/
def matWidth (A : List (List Nat)) : Nat := (A.headD []).length

/-- Indices of the nonzero entries of matrix column `n`
(`numpy.nonzero` on `attributions[:, n]`, pipeline.py 1006). -/
def nonzeroCol (A : List (List Nat)) (n : Nat) : List Nat :=
  (List.range A.length).filter (fun o => (A.getD o []).getD n 0 != 0)

/-- Per-ROI mutable state used by the tracking stage: the segmentation
mask sequence (with `none` placeholders for frames stored out of order)
and the lineage. -/
structure ROI where
  seg_stack : List (Option Mask)
  lineage : Lineage
deriving DecidableEq

/-- Failure modes of `ROI.get_tracking_inputs`: the explicit
`RuntimeError("Segmentation incomplete - frame %d")` precondition
violation (pipeline.py 879-880), or a crash inside the external image
operations when a mask slot holds a placeholder instead of a mask. -/
inductive TrackErr where
  | segIncomplete : TrackErr
  | externalCrash : TrackErr
deriving DecidableEq

/-- Embeds `ROI.get_tracking_inputs` (pipeline.py 846-955), state-passing.
First the precondition check: if the mask sequence is shorter than
`frame + 1` it raises (`segIncomplete`) and no state is modified.  Then,
when `frame` is 0 or no cells were tracked at `frame - 1`, every
component of frame `frame`'s mask is registered as a new orphan cell and
`none` is returned instead of an input batch.  Otherwise one input per
previous-frame component is compiled (the tensor assembly is external
`cv2`/`numpy` work; the batch is represented by the component list of the
previous frame's mask that indexes it). -/
def get_tracking_inputs (st : ROI) (frame : Nat) :
    Except TrackErr (ROI × Option Mask) :=
  if st.seg_stack.length ≤ frame then
    Except.error TrackErr.segIncomplete
  else
    if frame = 0 ∨ st.lineage.cellnumbers.length < frame ∨
        st.lineage.cellnumbers.getD (frame - 1) [] = [] then
      match st.seg_stack.getD frame none with
      | none => Except.error TrackErr.externalCrash
      | some m =>
        let poles := getpoles m
        let lin :=
          (List.range poles.length).foldl
            (fun l c => l.update none frame [c]) st.lineage
        Except.ok ({ st with lineage := lin }, none)
    else
      match st.seg_stack.getD (frame - 1) none, st.seg_stack.getD frame none with
      | some prev, some _ => Except.ok (st, some prev)
      | _, _ => Except.error TrackErr.externalCrash

/-- One step of the old-cells loop of `ROI.process_tracking_outputs`
(pipeline.py 998-1003): old cell `o` is attributed the nonzero entries of
its row, one new child entry per attributed new cell. -/
def oldStep (A : List (List Nat)) (f : Nat) (l : Lineage) (o : Nat) : Lineage :=
  l.update (some o) f (nonzeroIdx (A.getD o []))

/-- One step of the orphan loop of `ROI.process_tracking_outputs`
(pipeline.py 1005-1009): a new cell whose attribution column is all zero
is registered as an orphan. -/
def orphanStep (A : List (List Nat)) (f : Nat) (l : Lineage) (n : Nat) : Lineage :=
  if nonzeroCol A n = [] then l.update none f [n] else l

/-- Embeds `ROI.process_tracking_outputs` (pipeline.py 958-1009) from the
point where the score matrix is available (`utils.getTrackingScores`
overlays the predictor's heat-map with the label map and is external to
`src/`; it yields `none` when there are no cells to score).  With no
scores the lineage only materialises the frame; otherwise the scores are
thresholded into the attribution matrix, every old cell is processed,
then every unattributed new cell becomes an orphan. -/
def process_tracking_outputs (st : ROI) (f : Nat)
    (scores : Option (List (List ℚ))) : ROI :=
  match scores with
  | none => { st with lineage := st.lineage.update none f [] }
  | some S =>
    let A := getAttributions S
    let lin1 := (List.range A.length).foldl (oldStep A f) st.lineage
    let lin2 := (List.range (matWidth A)).foldl (orphanStep A f) lin1
    { st with lineage := lin2 }

/-- Bookkeeping for the old-cells loop: the block of entries it appends
to frame `f`, starting from fresh id `s` — for each old cell in turn, one
entry per nonzero row entry, with consecutive fresh ids. -/
def oldTrace (A : List (List Nat)) : Nat → List Nat → FrameEntries
  | _, [] => []
  | s, o :: os =>
    (List.range (nonzeroIdx (A.getD o [])).length).map (fun i => (s + i, some o))
      ++ oldTrace A (s + (nonzeroIdx (A.getD o [])).length) os

/-- Total number of entries the old-cells loop appends. -/
def oldTotal (A : List (List Nat)) : List Nat → Nat
  | [] => 0
  | o :: os => (nonzeroIdx (A.getD o [])).length + oldTotal A os

/-- The block of orphan entries registered for `k` detected components,
with consecutive fresh ids starting at `s` and no parent. -/
def orphEntries (s k : Nat) : FrameEntries :=
  (List.range k).map (fun i => (s + i, none))

/-- A candidate drift shift together with its matching score. -/
abbrev ShiftCand := (Int × Int) × ℚ

/-- Best-scoring candidate shift, if any. -/
def driftcorr_best (cands : List ShiftCand) : Option ShiftCand :=
  cands.foldl
    (fun acc s =>
      match acc with
      | none => some s
      | some b => if b.2 < s.2 then some s else some b)
    none

/-- Modelled from the spec: the shift selection of
`delta.utilities.driftcorr` (called by `Position.segment`, pipeline.py
495-501), which matches the drift template inside the search box.  Spec
4.1: candidate shifts are scored against the fixed template; if the best
candidate scores above the minimal confidence it is returned, otherwise
the corrector fails soft, returning the zero translation together with a
non-fatal warning flag (second component `true`) instead of raising. -/
def driftcorr (cands : List ShiftCand) (minConf : ℚ) : (Int × Int) × Bool :=
  match driftcorr_best cands with
  | none => ((0, 0), true)
  | some b => if minConf < b.2 then (b.1, false) else ((0, 0), true)

/-- Embeds the attribute state of class `Position` (pipeline.py 261-304):
every attribute is optional so that `clear` can release it (`None` in the
source).  `reader` and `models` are external handles (represented by
opaque tokens); together with the constant skip tuple itself they form
`_pickle_skip = ('reader', 'models', '_pickle_skip')`. -/
structure Position where
  position_nb : Option Nat
  reader : Option Nat
  models : Option Nat
  rois : Option (List ROI)
  drift_values : Option (List Int × List Int)
  drift_correction : Option Bool
  crop_windows : Option Bool
  verbose : Option Nat
  preprocessed : Option Bool
  rotate : Option Int
deriving DecidableEq

/-- Embeds `Position.__getstate__` (pipeline.py 307-325): the pickled
state keeps every attribute except those in `_pickle_skip`, which are
stored as `None`. -/
def Position.getstate (p : Position) : Position :=
  { p with reader := none, models := none }

/-- Embeds `Position.clear` (pipeline.py 700-714): every attribute not in
`_pickle_skip` is set to `None` (released from memory); only `reader` and
`models` survive. -/
def Position.clear (p : Position) : Position :=
  { position_nb := none
    reader := p.reader
    models := p.models
    rois := none
    drift_values := none
    drift_correction := none
    crop_windows := none
    verbose := none
    preprocessed := none
    rotate := none }

/-- Embeds `Position.load` (pipeline.py 678-697): every attribute of the
saved state not in `_pickle_skip` is copied onto `self`; the skip
attributes keep `self`'s values. -/
def Position.load (self saved : Position) : Position :=
  { saved with reader := self.reader, models := self.models }

/-- A concrete 3 × 5 test image (pixel value encodes its coordinates). -/
def sampleImage : Image :=
  { h := 3, w := 5, pix := fun r c => ((r * 10 + c : Nat) : ℚ) }

/-- A concrete fully-populated position: one ROI with one stored mask and
one lineage entry (cell 0, an orphan at frame 0). -/
def samplePosition : Position :=
  { position_nb := some 0
    reader := some 7
    models := some 8
    rois := some [⟨[some [0]], ⟨[[(0, none)]], [], 1⟩⟩]
    drift_values := some ([], [])
    drift_correction := some true
    crop_windows := some false
    verbose := some 1
    preprocessed := some true
    rotate := some 0 }

lemma writeWindow_not_covers {ts : Nat} {base : Nat → Nat → ℚ} {wd : Window}
    {r c : Nat} (h : ¬ coversW ts wd r c) :
    writeWindow ts base wd r c = base r c := by
  unfold writeWindow
  exact if_neg h

lemma writeWindow_covers {ts : Nat} {base : Nat → Nat → ℚ} {wd : Window}
    {r c : Nat} (h : coversW ts wd r c) :
    writeWindow ts base wd r c = wd.pix (r - wd.y0) (c - wd.x0) := by
  unfold writeWindow
  exact if_pos h

lemma foldl_write_nocover {ts r c : Nat} (ws : List Window)
    (base : Nat → Nat → ℚ) (h : ∀ wd ∈ ws, ¬ coversW ts wd r c) :
    ws.foldl (writeWindow ts) base r c = base r c := by
  induction ws generalizing base with
  | nil => rfl
  | cons a t ih =>
    rw [List.foldl_cons, ih (writeWindow ts base a)
      (fun wd hm => h wd (List.mem_cons_of_mem _ hm)),
      writeWindow_not_covers (h a (List.mem_cons_self a t))]

lemma foldl_write_split {ts r c : Nat} (l1 l2 : List Window) (wd : Window)
    (base : Nat → Nat → ℚ) (hcov : coversW ts wd r c)
    (h2 : ∀ w2 ∈ l2, ¬ coversW ts w2 r c) :
    (l1 ++ wd :: l2).foldl (writeWindow ts) base r c
      = wd.pix (r - wd.y0) (c - wd.x0) := by
  rw [List.foldl_append, List.foldl_cons, foldl_write_nocover l2 _ h2,
    writeWindow_covers hcov]

lemma lt_div_succ_mul (r ts : Nat) (hts : 0 < ts) : r < (r / ts + 1) * ts := by
  have h1 := Nat.div_add_mod r ts
  have h2 := Nat.mod_lt r hts
  calc r = ts * (r / ts) + r % ts := h1.symm
    _ < ts * (r / ts) + ts := Nat.add_lt_add_left h2 _
    _ = (r / ts + 1) * ts := by ring

lemma div_lt_nTiles {r n ts : Nat} (hr : r < n) (hts : 0 < ts) :
    r / ts < nTiles n ts := by
  unfold nTiles
  have he : n + ts - 1 = (n - 1) + ts := by omega
  rw [he, Nat.add_div_right _ hts]
  exact Nat.lt_succ_of_le (Nat.div_le_div_right (by omega))

lemma range_split {n i : Nat} (h : i < n) :
    ∃ t, List.range n = List.range i ++ i :: t ∧ ∀ x ∈ t, i < x := by
  induction n with
  | zero => omega
  | succ m ih =>
    rcases Nat.lt_succ_iff_lt_or_eq.mp h with h2 | h2
    · obtain ⟨t, ht, hgt⟩ := ih h2
      refine ⟨t ++ [m], ?_, ?_⟩
      · rw [List.range_succ, ht]
        simp [List.append_assoc]
      · intro x hx
        rcases List.mem_append.mp hx with h3 | h3
        · exact hgt x h3
        · simp only [List.mem_singleton] at h3
          omega
    · subst h2
      exact ⟨[], by rw [List.range_succ], fun x hx => absurd hx (List.not_mem_nil x)⟩

lemma mkWindow_covers (img : Image) (ts r c : Nat) (hts : 0 < ts) :
    coversW ts (mkWindow img ts (r / ts) (c / ts)) r c := by
  refine ⟨Nat.div_mul_le_self r ts, ?_, Nat.div_mul_le_self c ts, ?_⟩
  · have h := lt_div_succ_mul r ts hts
    rw [Nat.add_one_mul] at h
    exact h
  · have h := lt_div_succ_mul c ts hts
    rw [Nat.add_one_mul] at h
    exact h

lemma create_windows_split (img : Image) (ts : Nat) (hts : 0 < ts)
    (r c : Nat) (hr : r < img.h) (hc : c < img.w) :
    ∃ l1 l2, create_windows img ts
        = l1 ++ mkWindow img ts (r / ts) (c / ts) :: l2 ∧
      ∀ w2 ∈ l2, ¬ coversW ts w2 r c := by
  obtain ⟨tR, htR, hgtR⟩ := range_split (div_lt_nTiles hr hts)
  obtain ⟨tC, htC, hgtC⟩ := range_split (div_lt_nTiles hc hts)
  refine ⟨(List.range (r / ts)).flatMap
      (fun i => (List.range (nTiles img.w ts)).map (fun j => mkWindow img ts i j))
      ++ (List.range (c / ts)).map (fun j => mkWindow img ts (r / ts) j),
    tC.map (fun j => mkWindow img ts (r / ts) j)
      ++ tR.flatMap
        (fun i => (List.range (nTiles img.w ts)).map (fun j => mkWindow img ts i j)),
    ?_, ?_⟩
  · rw [create_windows, htR, List.flatMap_append, List.flatMap_cons, htC,
      List.map_append, List.map_cons]
    simp [List.append_assoc]
  · intro w2 hw2
    rcases List.mem_append.mp hw2 with hA | hB
    · obtain ⟨j2, hj2, rfl⟩ := List.mem_map.mp hA
      have hjgt := hgtC j2 hj2
      intro hcov
      have hx0 : (mkWindow img ts (r / ts) j2).x0 = j2 * ts := rfl
      have hcl : c < (c / ts + 1) * ts := lt_div_succ_mul c ts hts
      have hle : (c / ts + 1) * ts ≤ j2 * ts := Nat.mul_le_mul_right ts hjgt
      have := hcov.2.2.1
      rw [hx0] at this
      omega
    · obtain ⟨i2, hi2, hm⟩ := List.mem_flatMap.mp hB
      obtain ⟨j2, _, rfl⟩ := List.mem_map.mp hm
      have higt := hgtR i2 hi2
      intro hcov
      have hy0 : (mkWindow img ts i2 j2).y0 = i2 * ts := rfl
      have hrl : r < (r / ts + 1) * ts := lt_div_succ_mul r ts hts
      have hle : (r / ts + 1) * ts ≤ i2 * ts := Nat.mul_le_mul_right ts higt
      have := hcov.1
      rw [hy0] at this
      omega

/-- C1: for every image and every tile size, stitching the tiles produced
by tiling the image reconstructs the original image exactly, including
when the image dimensions are not multiples of the tile size: partial
tiles are zero-padded to full tile size (by construction of
`create_windows`), and stitching followed by the pipeline's crop to the
original size recovers an image with exactly the original dimensions and
content. -/
theorem tiling_stitching_roundtrip (img : Image) (ts : Nat) (hts : 0 < ts)
    (r c : Nat) (hr : r < img.h) (hc : c < img.w) :
    (reconstruct img ts).h = img.h ∧ (reconstruct img ts).w = img.w ∧
    (reconstruct img ts).pix r c = img.pix r c := by
  refine ⟨rfl, rfl, ?_⟩
  obtain ⟨l1, l2, hsplit, hnc⟩ := create_windows_split img ts hts r c hr hc
  have hcov := mkWindow_covers img ts r c hts
  show (if r < img.h ∧ c < img.w then stitch_pic (create_windows img ts) ts r c
      else 0) = img.pix r c
  rw [if_pos ⟨hr, hc⟩]
  unfold stitch_pic
  rw [hsplit, foldl_write_split l1 l2 _ _ hcov hnc]
  show (if r / ts * ts + (r - r / ts * ts) < img.h ∧
        c / ts * ts + (c - c / ts * ts) < img.w
      then img.pix (r / ts * ts + (r - r / ts * ts)) (c / ts * ts + (c - c / ts * ts))
      else 0) = img.pix r c
  rw [Nat.add_sub_cancel' (Nat.div_mul_le_self r ts),
    Nat.add_sub_cancel' (Nat.div_mul_le_self c ts), if_pos ⟨hr, hc⟩]

/-- Witness for C1: the 3 × 5 sample image tiled at size 2 (neither
dimension a multiple of 2) recovers its pixel (2, 3). -/
theorem tiling_stitching_roundtrip_witness :
    (0 < 2 ∧ 2 < sampleImage.h ∧ 3 < sampleImage.w) ∧
    ((reconstruct sampleImage 2).h = sampleImage.h ∧
      (reconstruct sampleImage 2).w = sampleImage.w ∧
      (reconstruct sampleImage 2).pix 2 3 = sampleImage.pix 2 3) :=
  ⟨⟨by decide, by decide, by decide⟩,
    tiling_stitching_roundtrip sampleImage 2 (by decide) 2 3 (by decide) (by decide)⟩

lemma getD_set_self {β : Type} (l : List β) (i : Nat) (a d : β)
    (h : i < l.length) : (l.set i a).getD i d = a := by
  rw [List.getD_eq_getElem _ _ (by simpa using h)]
  simp

lemma getD_set_ne {β : Type} (l : List β) (i j : Nat) (a d : β) (h : i ≠ j) :
    (l.set i a).getD j d = l.getD j d := by
  rcases Nat.lt_or_ge j l.length with hj | hj
  · rw [List.getD_eq_getElem _ _ (by simpa using hj),
      List.getD_eq_getElem _ _ hj]
    simp [List.getElem_set_ne h]
  · rw [List.getD_eq_default _ _ (by simpa using hj),
      List.getD_eq_default _ _ hj]

lemma getD_replicate_none {β : Type} (n i : Nat) (h : i < n) :
    (List.replicate n (none : Option β)).getD i none = none := by
  rw [List.getD_eq_getElem _ _ (by simpa using h)]
  simp

lemma store_seg_length {α : Type} (stack : List (Option α)) (f : Nat) (y : α)
    (h : stack.length ≤ f) : (store_seg stack f y).length = f + 1 := by
  unfold store_seg
  rw [if_pos h]
  simp only [List.length_set, List.length_append, List.length_replicate]
  omega

/-- C6: storing a segmentation output at frame index `f` is callable out
of order: if the mask sequence currently has length `L ≤ f`, it is
extended with `none` placeholders up to index `f`, the processed mask is
stored at index `f`, and every previously stored mask below `L` is
unchanged. -/
theorem store_seg_out_of_order {α : Type} (stack : List (Option α)) (f : Nat)
    (y : α) (h : stack.length ≤ f) :
    (store_seg stack f y).length = f + 1 ∧
    (store_seg stack f y).getD f none = some y ∧
    (∀ i, i < stack.length → (store_seg stack f y).getD i none = stack.getD i none) ∧
    (∀ i, stack.length ≤ i → i < f → (store_seg stack f y).getD i none = none) := by
  refine ⟨store_seg_length stack f y h, ?_, ?_, ?_⟩
  · unfold store_seg
    rw [if_pos h]
    exact getD_set_self _ _ _ _
      (by simp only [List.length_append, List.length_replicate]; omega)
  · intro i hi
    unfold store_seg
    rw [if_pos h, getD_set_ne _ _ _ _ _ (by omega), List.getD_append _ _ _ _ hi]
  · intro i hi1 hi2
    unfold store_seg
    rw [if_pos h, getD_set_ne _ _ _ _ _ (by omega),
      List.getD_append_right _ _ _ _ hi1]
    exact getD_replicate_none _ _ (by omega)

/-- Witness for C6: storing a mask at frame 3 on a stack of length 1
extends it with placeholders, stores at index 3, and keeps index 0. -/
theorem store_seg_out_of_order_witness :
    (([some [5]] : List (Option Mask)).length ≤ 3) ∧
    ((store_seg [some [5]] 3 ([7] : Mask)).length = 3 + 1 ∧
      (store_seg [some [5]] 3 ([7] : Mask)).getD 3 none = some [7] ∧
      (∀ i, i < ([some [5]] : List (Option Mask)).length →
        (store_seg [some [5]] 3 ([7] : Mask)).getD i none
          = ([some [5]] : List (Option Mask)).getD i none) ∧
      (∀ i, ([some [5]] : List (Option Mask)).length ≤ i → i < 3 →
        (store_seg [some [5]] 3 ([7] : Mask)).getD i none = none)) :=
  ⟨by decide, store_seg_out_of_order [some [5]] 3 [7] (by decide)⟩

lemma get_tracking_inputs_error_iff (st : ROI) (f : Nat) :
    get_tracking_inputs st f = Except.error TrackErr.segIncomplete ↔
      st.seg_stack.length ≤ f := by
  constructor
  · intro h
    by_contra hlen
    unfold get_tracking_inputs at h
    rw [if_neg hlen] at h
    split at h
    · split at h <;> simp_all
    · split at h <;> simp_all
  · intro h
    unfold get_tracking_inputs
    rw [if_pos h]

/-- C4: requesting tracking input compilation for frame `f` when the
segmentation mask sequence does not yet contain an entry for frame `f`
raises the `RuntimeError` (precondition violation); the request fails
before any state is touched, so no state is modified (the error result
carries no updated state). -/
theorem get_tracking_inputs_seg_incomplete (st : ROI) (f : Nat)
    (h : st.seg_stack.length ≤ f) :
    get_tracking_inputs st f = Except.error TrackErr.segIncomplete := by
  unfold get_tracking_inputs
  rw [if_pos h]

/-- Witness for C4: an ROI with an empty mask sequence rejects a tracking
request for frame 0. -/
theorem get_tracking_inputs_seg_incomplete_witness :
    ((⟨[], ⟨[], [], 0⟩⟩ : ROI).seg_stack.length ≤ 0) ∧
    get_tracking_inputs ⟨[], ⟨[], [], 0⟩⟩ 0
      = Except.error TrackErr.segIncomplete :=
  ⟨by decide, get_tracking_inputs_seg_incomplete ⟨[], ⟨[], [], 0⟩⟩ 0 (by decide)⟩

/-- C10: the segmentation-incomplete error is raised exactly when the
requested frame index is not below the mask sequence's length; a `none`
placeholder created by an out-of-order store for a later frame `g > f`
makes the slot at `f` exist (but hold no mask), so the precondition check
passes and no precondition violation is signalled for frame `f`. -/
theorem tracking_placeholder_passes_precondition (st : ROI) (f g : Nat)
    (m : Mask) (h1 : st.seg_stack.length ≤ f) (h2 : f < g) :
    (∀ st2 : ROI, ∀ k,
      (get_tracking_inputs st2 k = Except.error TrackErr.segIncomplete ↔
        st2.seg_stack.length ≤ k)) ∧
    (store_seg st.seg_stack g m).getD f none = none ∧
    get_tracking_inputs { st with seg_stack := store_seg st.seg_stack g m } f
      ≠ Except.error TrackErr.segIncomplete := by
  have hlen : (store_seg st.seg_stack g m).length = g + 1 :=
    store_seg_length _ _ _ (by omega)
  refine ⟨fun st2 k => get_tracking_inputs_error_iff st2 k, ?_, ?_⟩
  · exact (store_seg_out_of_order st.seg_stack g m (by omega)).2.2.2 f h1 h2
  · intro hcon
    have hc2 := (get_tracking_inputs_error_iff
      { st with seg_stack := store_seg st.seg_stack g m } f).mp hcon
    simp only at hc2
    rw [hlen] at hc2
    omega

/-- Witness for C10: an empty mask sequence receives an out-of-order
store at frame 1; frame 0's slot then exists but holds `none`, and the
tracking request for frame 0 no longer signals the precondition error. -/
theorem tracking_placeholder_passes_precondition_witness :
    ((⟨[], ⟨[], [], 0⟩⟩ : ROI).seg_stack.length ≤ 0 ∧ 0 < 1) ∧
    ((∀ st2 : ROI, ∀ k,
      (get_tracking_inputs st2 k = Except.error TrackErr.segIncomplete ↔
        st2.seg_stack.length ≤ k)) ∧
    (store_seg (⟨[], ⟨[], [], 0⟩⟩ : ROI).seg_stack 1 ([] : Mask)).getD 0 none
      = none ∧
    get_tracking_inputs
        { (⟨[], ⟨[], [], 0⟩⟩ : ROI) with
          seg_stack := store_seg (⟨[], ⟨[], [], 0⟩⟩ : ROI).seg_stack 1 ([] : Mask) } 0
      ≠ Except.error TrackErr.segIncomplete) :=
  ⟨⟨by decide, by decide⟩,
    tracking_placeholder_passes_precondition ⟨[], ⟨[], [], 0⟩⟩ 0 1 []
      (by decide) (by decide)⟩

lemma appendAt_getD_self (f : Nat) (fs : List FrameEntries) (new : FrameEntries) :
    (appendAt fs f new).getD f [] = fs.getD f [] ++ new := by
  induction f generalizing fs with
  | zero => cases fs <;> simp [appendAt]
  | succ k ih =>
    cases fs with
    | nil => simpa [appendAt] using ih []
    | cons es rest => simpa [appendAt] using ih rest

lemma appendAt_getD_ne (f g : Nat) (fs : List FrameEntries) (new : FrameEntries)
    (h : g ≠ f) : (appendAt fs f new).getD g [] = fs.getD g [] := by
  induction f generalizing fs g with
  | zero =>
    cases fs with
    | nil =>
      cases g with
      | zero => omega
      | succ g2 => simp [appendAt]
    | cons es rest =>
      cases g with
      | zero => omega
      | succ g2 => simp [appendAt]
  | succ k ih =>
    cases fs with
    | nil =>
      cases g with
      | zero => simp [appendAt]
      | succ g2 => simpa [appendAt] using ih g2 [] (by omega)
    | cons es rest =>
      cases g with
      | zero => simp [appendAt]
      | succ g2 => simpa [appendAt] using ih g2 rest (by omega)

lemma update_entriesAt_self (l : Lineage) (p : Option Nat) (f : Nat)
    (attrib : List Nat) :
    (l.update p f attrib).entriesAt f
      = l.entriesAt f
        ++ (List.range attrib.length).map (fun i => (l.nextid + i, p)) := by
  unfold Lineage.update Lineage.entriesAt
  exact appendAt_getD_self f l.frames _

lemma update_entriesAt_ne (l : Lineage) (p : Option Nat) (f g : Nat)
    (attrib : List Nat) (h : g ≠ f) :
    (l.update p f attrib).entriesAt g = l.entriesAt g := by
  unfold Lineage.update Lineage.entriesAt
  exact appendAt_getD_ne f g l.frames _ h

lemma orphEntries_succ (s k : Nat) :
    orphEntries s (k + 1) = (s, none) :: orphEntries (s + 1) k := by
  unfold orphEntries
  rw [List.range_succ_eq_map, List.map_cons, List.map_map]
  congr 1
  apply List.map_congr_left
  intro i _
  show ((s + Nat.succ i : Nat), (none : Option Nat)) = (s + 1 + i, none)
  rw [show s + Nat.succ i = s + 1 + i from by omega]

lemma orphanRegFold (f : Nat) (ns : List Nat) :
    ∀ l : Lineage,
      ((ns.foldl (fun l2 c => l2.update none f [c]) l).entriesAt f
        = l.entriesAt f ++ orphEntries l.nextid ns.length)
      ∧ (ns.foldl (fun l2 c => l2.update none f [c]) l).nextid
        = l.nextid + ns.length := by
  induction ns with
  | nil => intro l; constructor <;> simp [orphEntries]
  | cons n ns ih =>
    intro l
    obtain ⟨ih1, ih2⟩ := ih (l.update none f [n])
    constructor
    · have hnid : (l.update none f [n]).nextid = l.nextid + 1 := rfl
      rw [List.foldl_cons, ih1, update_entriesAt_self,
        show (n :: ns).length = ns.length + 1 from rfl, orphEntries_succ, hnid,
        show List.range [n].length = [0] from rfl,
        List.map_cons, List.map_nil, List.append_assoc]
      rfl
    · rw [List.foldl_cons, ih2]
      have hnid : (l.update none f [n]).nextid = l.nextid + 1 := rfl
      rw [hnid]
      simp only [List.length_cons]
      omega

/-- C5: when frame `f` is 0 or the previous frame has zero tracked cells,
`get_tracking_inputs` returns `none` instead of an input batch, raises no
exception, and registers every connected component detected in frame
`f`'s mask as a new orphan cell (fresh consecutive ids, no parent). -/
theorem get_tracking_inputs_degenerate_orphans (st : ROI) (f : Nat) (m : Mask)
    (hlen : f < st.seg_stack.length)
    (hm : st.seg_stack.getD f none = some m)
    (hdeg : f = 0 ∨ st.lineage.cellnumbers.getD (f - 1) [] = []) :
    ∃ st2 : ROI,
      get_tracking_inputs st f = Except.ok (st2, none) ∧
      st2.seg_stack = st.seg_stack ∧
      st2.lineage.entriesAt f
        = st.lineage.entriesAt f ++ orphEntries st.lineage.nextid m.length := by
  have hcond : f = 0 ∨ st.lineage.cellnumbers.length < f ∨
      st.lineage.cellnumbers.getD (f - 1) [] = [] := by
    rcases hdeg with h | h
    · exact Or.inl h
    · exact Or.inr (Or.inr h)
  refine ⟨{ st with
      lineage := (List.range (getpoles m).length).foldl
          (fun l c => l.update none f [c]) st.lineage }, ?_, rfl, ?_⟩
  · unfold get_tracking_inputs
    rw [if_neg (by omega), if_pos hcond, hm]
  · have h := (orphanRegFold f (List.range (getpoles m).length)) st.lineage
    show ((List.range (getpoles m).length).foldl
        (fun l c => l.update none f [c]) st.lineage).entriesAt f
      = st.lineage.entriesAt f ++ orphEntries st.lineage.nextid m.length
    rw [h.1, List.length_range]
    rfl

/-- Witness for C5: frame 0 with a two-component mask and an empty
lineage: the call succeeds with `none` and registers two orphans. -/
theorem get_tracking_inputs_degenerate_orphans_witness :
    (0 < ((⟨[some [4, 9]], ⟨[], [], 0⟩⟩ : ROI)).seg_stack.length ∧
      (⟨[some [4, 9]], ⟨[], [], 0⟩⟩ : ROI).seg_stack.getD 0 none = some [4, 9] ∧
      ((0 : Nat) = 0 ∨
        (⟨[some [4, 9]], ⟨[], [], 0⟩⟩ : ROI).lineage.cellnumbers.getD (0 - 1) []
          = [])) ∧
    ∃ st2 : ROI,
      get_tracking_inputs ⟨[some [4, 9]], ⟨[], [], 0⟩⟩ 0
        = Except.ok (st2, none) ∧
      st2.seg_stack = (⟨[some [4, 9]], ⟨[], [], 0⟩⟩ : ROI).seg_stack ∧
      st2.lineage.entriesAt 0
        = (⟨[some [4, 9]], ⟨[], [], 0⟩⟩ : ROI).lineage.entriesAt 0
          ++ orphEntries (⟨[some [4, 9]], ⟨[], [], 0⟩⟩ : ROI).lineage.nextid
            ([4, 9] : Mask).length :=
  ⟨⟨by decide, by decide, by decide⟩,
    get_tracking_inputs_degenerate_orphans ⟨[some [4, 9]], ⟨[], [], 0⟩⟩ 0 [4, 9]
      (by decide) (by decide) (by decide)⟩

lemma threshold_cases (x : ℚ) :
    ((if tau < x then (1 : Nat) else 0) = 1 ↔ tau < x) ∧
    ((if tau < x then (1 : Nat) else 0) = 1 ∨ (if tau < x then (1 : Nat) else 0) = 0) := by
  by_cases h : tau < x <;> simp [h]

/-- C2: the Tracking Assigner thresholds every score entry at τ = 0.5:
the attribution matrix is binary, and `A[o][n] = 1` iff `S[o][n] > τ`
(no global optimal assignment is computed, so one old cell may be
attributed to several new cells and a new cell may receive none). -/
theorem getAttributions_threshold (S : List (List ℚ)) (o n : Nat)
    (ho : o < S.length) (hn : n < (S.getD o []).length) :
    (((getAttributions S).getD o []).getD n 0 = 1 ↔ tau < (S.getD o []).getD n 0) ∧
    (((getAttributions S).getD o []).getD n 0 = 1 ∨
      ((getAttributions S).getD o []).getD n 0 = 0) := by
  have hrow : (getAttributions S).getD o []
      = (S.getD o []).map (fun s => if tau < s then 1 else 0) := by
    unfold getAttributions
    rw [List.getD_eq_getElem _ _ (by simpa using ho), List.getElem_map,
      List.getD_eq_getElem _ _ ho]
  have hentry : ((getAttributions S).getD o []).getD n 0
      = (if tau < (S.getD o []).getD n 0 then 1 else 0) := by
    rw [hrow, List.getD_eq_getElem _ _ (by simpa using hn), List.getElem_map,
      List.getD_eq_getElem _ _ hn]
  rw [hentry]
  exact threshold_cases _

/-- Witness for C2: a score row `[0.9, 0.2]` against threshold 0.5. -/
theorem getAttributions_threshold_witness :
    (0 < ([[mkRat 9 10, mkRat 2 10]] : List (List ℚ)).length ∧
      1 < (([[mkRat 9 10, mkRat 2 10]] : List (List ℚ)).getD 0 []).length) ∧
    (((getAttributions [[mkRat 9 10, mkRat 2 10]]).getD 0 []).getD 1 0 = 1 ↔
        tau < (([[mkRat 9 10, mkRat 2 10]] : List (List ℚ)).getD 0 []).getD 1 0) ∧
    (((getAttributions [[mkRat 9 10, mkRat 2 10]]).getD 0 []).getD 1 0 = 1 ∨
      ((getAttributions [[mkRat 9 10, mkRat 2 10]]).getD 0 []).getD 1 0 = 0) :=
  ⟨⟨by decide, by decide⟩,
    getAttributions_threshold [[mkRat 9 10, mkRat 2 10]] 0 1 (by decide) (by decide)⟩

lemma oldFold_entries (A : List (List Nat)) (f : Nat) (os : List Nat) :
    ∀ l : Lineage,
      ((os.foldl (oldStep A f) l).entriesAt f
        = l.entriesAt f ++ oldTrace A l.nextid os)
      ∧ (os.foldl (oldStep A f) l).nextid = l.nextid + oldTotal A os := by
  induction os with
  | nil => intro l; constructor <;> simp [oldTrace, oldTotal]
  | cons o os ih =>
    intro l
    obtain ⟨ih1, ih2⟩ := ih (oldStep A f l o)
    have hnid : (oldStep A f l o).nextid
        = l.nextid + (nonzeroIdx (A.getD o [])).length := rfl
    constructor
    · rw [List.foldl_cons, ih1]
      show (l.update (some o) f (nonzeroIdx (A.getD o []))).entriesAt f
          ++ oldTrace A (oldStep A f l o).nextid os
        = l.entriesAt f ++ oldTrace A l.nextid (o :: os)
      rw [update_entriesAt_self, hnid, List.append_assoc, oldTrace]
    · rw [List.foldl_cons, ih2, hnid, oldTotal]
      omega

lemma oldTrace_id_range (A : List (List Nat)) (os : List Nat) :
    ∀ s e, e ∈ oldTrace A s os → s ≤ e.1 ∧ e.1 < s + oldTotal A os := by
  induction os with
  | nil => intro s e he; simp [oldTrace] at he
  | cons o os ih =>
    intro s e he
    rw [oldTrace] at he
    rcases List.mem_append.mp he with hb | hr
    · obtain ⟨i, hi, rfl⟩ := List.mem_map.mp hb
      have hik := List.mem_range.mp hi
      rw [oldTotal]
      constructor
      · exact Nat.le_add_right s i
      · omega
    · have h2 := ih _ _ hr
      rw [oldTotal]
      omega

lemma oldTrace_parent_unique (A : List (List Nat)) (os : List Nat) :
    ∀ s c p q, (c, p) ∈ oldTrace A s os → (c, q) ∈ oldTrace A s os → p = q := by
  induction os with
  | nil => intro s c p q hp _; simp [oldTrace] at hp
  | cons o os ih =>
    intro s c p q hp hq
    rw [oldTrace] at hp hq
    rcases List.mem_append.mp hp with hp1 | hp2 <;>
      rcases List.mem_append.mp hq with hq1 | hq2
    · obtain ⟨i, _, hi⟩ := List.mem_map.mp hp1
      obtain ⟨j, _, hj⟩ := List.mem_map.mp hq1
      have hpo : some o = p := (Prod.mk.injEq _ _ _ _).mp hi |>.2
      have hqo : some o = q := (Prod.mk.injEq _ _ _ _).mp hj |>.2
      rw [← hpo, ← hqo]
    · obtain ⟨i, hi, hieq⟩ := List.mem_map.mp hp1
      have hc1 : s + i = c := ((Prod.mk.injEq _ _ _ _).mp hieq).1
      have hik := List.mem_range.mp hi
      have h2 := oldTrace_id_range A os _ _ hq2
      omega
    · obtain ⟨j, hj, hjeq⟩ := List.mem_map.mp hq1
      have hc1 : s + j = c := ((Prod.mk.injEq _ _ _ _).mp hjeq).1
      have hjk := List.mem_range.mp hj
      have h2 := oldTrace_id_range A os _ _ hp2
      omega
    · exact ih _ _ _ _ hp2 hq2

lemma oldTrace_pair (A : List (List Nat)) (os : List Nat) :
    ∀ s o, o ∈ os → (nonzeroIdx (A.getD o [])).length = 2 →
      ∃ c1 c2, c1 ≠ c2 ∧ s ≤ c1 ∧ s ≤ c2 ∧
        (c1, some o) ∈ oldTrace A s os ∧ (c2, some o) ∈ oldTrace A s os := by
  induction os with
  | nil => intro s o ho; exact absurd ho (List.not_mem_nil o)
  | cons o2 os ih =>
    intro s o ho hk
    rcases List.mem_cons.mp ho with rfl | ho2
    · refine ⟨s, s + 1, by omega, Nat.le_refl s, by omega, ?_, ?_⟩
      · rw [oldTrace]
        apply List.mem_append_left
        rw [hk]
        exact List.mem_map.mpr ⟨0, by simp, by simp⟩
      · rw [oldTrace]
        apply List.mem_append_left
        rw [hk]
        exact List.mem_map.mpr ⟨1, by simp, by simp⟩
    · obtain ⟨c1, c2, hne, hs1, hs2, hm1, hm2⟩ :=
        ih (s + (nonzeroIdx (A.getD o2 [])).length) o ho2 hk
      refine ⟨c1, c2, hne, by omega, by omega, ?_, ?_⟩
      · rw [oldTrace]
        exact List.mem_append_right _ hm1
      · rw [oldTrace]
        exact List.mem_append_right _ hm2

lemma orphanFold_entries (A : List (List Nat)) (f : Nat) (ns : List Nat) :
    ∀ l : Lineage, ∃ tail,
      ((ns.foldl (orphanStep A f) l).entriesAt f = l.entriesAt f ++ tail) ∧
      (∀ e ∈ tail, l.nextid ≤ e.1 ∧ e.2 = none) := by
  induction ns with
  | nil =>
    intro l
    exact ⟨[], by simp, by simp⟩
  | cons n ns ih =>
    intro l
    rw [List.foldl_cons]
    by_cases hcond : nonzeroCol A n = []
    · have heq : orphanStep A f l n = l.update none f [n] := by
        unfold orphanStep
        rw [if_pos hcond]
      rw [heq]
      obtain ⟨tail, ht, hp⟩ := ih (l.update none f [n])
      refine ⟨(l.nextid, none) :: tail, ?_, ?_⟩
      · rw [ht, update_entriesAt_self,
          show List.range [n].length = [0] from rfl,
          List.map_cons, List.map_nil, List.append_assoc]
        rfl
      · intro e he
        rcases List.mem_cons.mp he with rfl | he2
        · exact ⟨Nat.le_refl _, rfl⟩
        · have h2 := hp e he2
          have hnid : (l.update none f [n]).nextid = l.nextid + 1 := rfl
          rw [hnid] at h2
          exact ⟨by omega, h2.2⟩
    · have heq : orphanStep A f l n = l := by
        unfold orphanStep
        rw [if_neg hcond]
      rw [heq]
      exact ih l

/-- C3: when the attribution matrix attributes old cell `o` to two new
cells at frame `f`, processing the tracking output creates two distinct
new child cell ids (fresh, never used before), both recording parent `o`
at that frame, and neither child is simultaneously recorded as a child of
any other parent at that frame. -/
theorem tracking_division_children (st : ROI) (f : Nat) (S : List (List ℚ))
    (o : Nat)
    (hwf : ∀ e ∈ st.lineage.entriesAt f, e.1 < st.lineage.nextid)
    (ho : o < (getAttributions S).length)
    (hk : (nonzeroIdx ((getAttributions S).getD o [])).length = 2) :
    ∃ c1 c2, c1 ≠ c2 ∧
      st.lineage.nextid ≤ c1 ∧ st.lineage.nextid ≤ c2 ∧
      (c1, some o) ∈ (process_tracking_outputs st f (some S)).lineage.entriesAt f ∧
      (c2, some o) ∈ (process_tracking_outputs st f (some S)).lineage.entriesAt f ∧
      (∀ p, (c1, p) ∈ (process_tracking_outputs st f (some S)).lineage.entriesAt f
        → p = some o) ∧
      (∀ p, (c2, p) ∈ (process_tracking_outputs st f (some S)).lineage.entriesAt f
        → p = some o) := by
  obtain ⟨hf1, hf2⟩ :=
    oldFold_entries (getAttributions S) f (List.range (getAttributions S).length)
      st.lineage
  obtain ⟨tail, htail, hprop⟩ :=
    orphanFold_entries (getAttributions S) f
      (List.range (matWidth (getAttributions S)))
      ((List.range (getAttributions S).length).foldl
        (oldStep (getAttributions S) f) st.lineage)
  have hpt : (process_tracking_outputs st f (some S)).lineage
      = (List.range (matWidth (getAttributions S))).foldl
          (orphanStep (getAttributions S) f)
          ((List.range (getAttributions S).length).foldl
            (oldStep (getAttributions S) f) st.lineage) := rfl
  have hfin : (process_tracking_outputs st f (some S)).lineage.entriesAt f
      = (st.lineage.entriesAt f
          ++ oldTrace (getAttributions S) st.lineage.nextid
            (List.range (getAttributions S).length)) ++ tail := by
    rw [hpt, htail, hf1]
  obtain ⟨c1, c2, hne, hs1, hs2, hm1, hm2⟩ :=
    oldTrace_pair (getAttributions S) (List.range (getAttributions S).length)
      st.lineage.nextid o (List.mem_range.mpr ho) hk
  have hr1 := oldTrace_id_range (getAttributions S)
    (List.range (getAttributions S).length) st.lineage.nextid _ hm1
  have hr2 := oldTrace_id_range (getAttributions S)
    (List.range (getAttributions S).length) st.lineage.nextid _ hm2
  refine ⟨c1, c2, hne, hs1, hs2, ?_, ?_, ?_, ?_⟩
  · rw [hfin]
    exact List.mem_append_left _ (List.mem_append_right _ hm1)
  · rw [hfin]
    exact List.mem_append_left _ (List.mem_append_right _ hm2)
  · intro p hp
    rw [hfin] at hp
    rcases List.mem_append.mp hp with h01 | ht
    · rcases List.mem_append.mp h01 with hE | hT
      · have := hwf _ hE
        simp only at this
        omega
      · exact oldTrace_parent_unique (getAttributions S) _ _ _ _ _ hT hm1
    · have h2 := hprop _ ht
      rw [hf2] at h2
      simp only at h2 hr1
      omega
  · intro p hp
    rw [hfin] at hp
    rcases List.mem_append.mp hp with h01 | ht
    · rcases List.mem_append.mp h01 with hE | hT
      · have := hwf _ hE
        simp only at this
        omega
      · exact oldTrace_parent_unique (getAttributions S) _ _ _ _ _ hT hm2
    · have h2 := hprop _ ht
      rw [hf2] at h2
      simp only at h2 hr2
      omega

/-- Witness for C3: scores `[[0.9, 0.9]]` (spec 8 scenario) attribute old
cell 0 to both new cells, creating two fresh children of parent 0. -/
theorem tracking_division_children_witness :
    ((∀ e ∈ (⟨[], ⟨[], [], 0⟩⟩ : ROI).lineage.entriesAt 1,
        e.1 < (⟨[], ⟨[], [], 0⟩⟩ : ROI).lineage.nextid) ∧
      0 < (getAttributions [[mkRat 9 10, mkRat 9 10]]).length ∧
      (nonzeroIdx ((getAttributions [[mkRat 9 10, mkRat 9 10]]).getD 0 [])).length
        = 2) ∧
    ∃ c1 c2, c1 ≠ c2 ∧
      (⟨[], ⟨[], [], 0⟩⟩ : ROI).lineage.nextid ≤ c1 ∧
      (⟨[], ⟨[], [], 0⟩⟩ : ROI).lineage.nextid ≤ c2 ∧
      (c1, some 0) ∈ (process_tracking_outputs ⟨[], ⟨[], [], 0⟩⟩ 1
        (some [[mkRat 9 10, mkRat 9 10]])).lineage.entriesAt 1 ∧
      (c2, some 0) ∈ (process_tracking_outputs ⟨[], ⟨[], [], 0⟩⟩ 1
        (some [[mkRat 9 10, mkRat 9 10]])).lineage.entriesAt 1 ∧
      (∀ p, (c1, p) ∈ (process_tracking_outputs ⟨[], ⟨[], [], 0⟩⟩ 1
        (some [[mkRat 9 10, mkRat 9 10]])).lineage.entriesAt 1 → p = some 0) ∧
      (∀ p, (c2, p) ∈ (process_tracking_outputs ⟨[], ⟨[], [], 0⟩⟩ 1
        (some [[mkRat 9 10, mkRat 9 10]])).lineage.entriesAt 1 → p = some 0) :=
  ⟨⟨by decide, by decide, by decide⟩,
    tracking_division_children ⟨[], ⟨[], [], 0⟩⟩ 1 [[mkRat 9 10, mkRat 9 10]] 0
      (by decide) (by decide) (by decide)⟩

lemma driftcorr_best_spec (cands : List ShiftCand) :
    ∀ (acc : Option ShiftCand) (b : ShiftCand),
      cands.foldl
        (fun acc s =>
          match acc with
          | none => some s
          | some b2 => if b2.2 < s.2 then some s else some b2) acc = some b →
      b ∈ cands ∨ acc = some b := by
  induction cands with
  | nil => intro acc b h; exact Or.inr h
  | cons a t ih =>
    intro acc b h
    rw [List.foldl_cons] at h
    rcases ih _ b h with hm | hacc
    · exact Or.inl (List.mem_cons_of_mem _ hm)
    · cases acc with
      | none =>
        have hab : a = b := by
          simpa using hacc
        exact Or.inl (hab ▸ List.mem_cons_self a t)
      | some b2 =>
        have hacc2 : (if b2.2 < a.2 then some a else some b2) = some b := hacc
        by_cases hlt : b2.2 < a.2
        · rw [if_pos hlt] at hacc2
          have hab : a = b := by simpa using hacc2
          exact Or.inl (hab ▸ List.mem_cons_self a t)
        · rw [if_neg hlt] at hacc2
          exact Or.inr hacc2

/-- C7: when no candidate shift scores above the minimal confidence, the
drift corrector returns the zero translation `(0, 0)` together with the
non-fatal warning flag, instead of raising — downstream stages always
receive a translation (the function is total). -/
theorem driftcorr_low_confidence (cands : List ShiftCand) (minConf : ℚ)
    (h : ∀ s ∈ cands, s.2 ≤ minConf) :
    driftcorr cands minConf = ((0, 0), true) := by
  unfold driftcorr
  cases hb : driftcorr_best cands with
  | none => rfl
  | some b =>
    unfold driftcorr_best at hb
    rcases driftcorr_best_spec cands none b hb with hm | hc
    · show (if minConf < b.2 then (b.1, false) else ((0, 0), true))
        = ((0, 0), true)
      rw [if_neg (not_lt.mpr (h b hm))]
    · exact absurd hc (by simp)

/-- Witness for C7: a single candidate scoring 0.3 against minimal
confidence 0.5 falls back to the zero translation with a warning. -/
theorem driftcorr_low_confidence_witness :
    (∀ s ∈ ([((2, 3), mkRat 3 10)] : List ShiftCand), s.2 ≤ mkRat 1 2) ∧
    driftcorr [((2, 3), mkRat 3 10)] (mkRat 1 2) = ((0, 0), true) :=
  ⟨by decide, driftcorr_low_confidence [((2, 3), mkRat 3 10)] (mkRat 1 2)
    (by decide)⟩

lemma setFeat_twice (fs : List ((Nat × Nat × String) × ℚ))
    (key : Nat × Nat × String) (v : ℚ) :
    setFeat (setFeat fs key v) key v = setFeat fs key v := by
  unfold setFeat
  rw [List.filter_append, List.filter_filter]
  simp

lemma setFeat_filter (fs : List ((Nat × Nat × String) × ℚ))
    (key : Nat × Nat × String) (v : ℚ) :
    (setFeat fs key v).filter (fun e => decide (e.1 = key)) = [(key, v)] := by
  unfold setFeat
  rw [List.filter_append, List.filter_filter]
  simp

/-- C8: `setvalue` is idempotent: calling it twice with the same
(cell, frame, feature, value) key leaves exactly one stored entry for
that key, holding the given value — the second call silently overwrites,
producing no duplicate. -/
theorem setvalue_idempotent (l : Lineage) (cell f : Nat) (feat : String)
    (v : ℚ) :
    (l.setvalue cell f feat v).setvalue cell f feat v
      = l.setvalue cell f feat v ∧
    ((l.setvalue cell f feat v).setvalue cell f feat v).features.filter
        (fun e => decide (e.1 = (cell, f, feat))) = [((cell, f, feat), v)] ∧
    ∀ w, ((cell, f, feat), w)
        ∈ ((l.setvalue cell f feat v).setvalue cell f feat v).features →
      w = v := by
  refine ⟨?_, ?_, ?_⟩
  · unfold Lineage.setvalue
    rw [setFeat_twice]
  · exact setFeat_filter _ _ _
  · intro w hw
    have hmem : ((cell, f, feat), w)
        ∈ ((l.setvalue cell f feat v).setvalue cell f feat v).features.filter
          (fun e => decide (e.1 = (cell, f, feat))) :=
      List.mem_filter.mpr ⟨hw, by simp⟩
    rw [show ((l.setvalue cell f feat v).setvalue cell f feat v).features
        = setFeat (setFeat l.features (cell, f, feat) v) (cell, f, feat) v
      from rfl, setFeat_filter] at hmem
    have := List.mem_singleton.mp hmem
    exact ((Prod.mk.injEq _ _ _ _).mp this).2

/-- Counterexample for C9: the claim that `clear` drops only the bulk
arrays while the lineage stays is false on the code.  `Position.clear`
sets every attribute outside `_pickle_skip` to `None`, so after clearing
`samplePosition` — whose `rois` holds a lineage with one recorded cell —
no lineage (nor label map) remains in memory: `rois` itself is `None`. -/
theorem clear_drops_lineage_counterexample :
    samplePosition.rois = some [⟨[some [0]], ⟨[[(0, none)]], [], 1⟩⟩] ∧
    (Position.clear samplePosition).rois = none :=
  ⟨rfl, rfl⟩

/-- C9 (amended): `clear` releases ALL per-position state from memory —
the bulk image/mask history but equally the lineage graph and derived
label maps (everything except the external `reader`/`models` handles of
`_pickle_skip`); the lineage and label maps (indeed the full durable
state) remain loadable afterwards, because loading the state saved by
`__getstate__` before clearing restores the position exactly. -/
theorem clear_releases_state_loadable (p : Position) :
    (Position.clear p).rois = none ∧
    (Position.clear p).position_nb = none ∧
    (Position.clear p).drift_values = none ∧
    (Position.clear p).drift_correction = none ∧
    (Position.clear p).crop_windows = none ∧
    (Position.clear p).verbose = none ∧
    (Position.clear p).preprocessed = none ∧
    (Position.clear p).rotate = none ∧
    (Position.clear p).reader = p.reader ∧
    (Position.clear p).models = p.models ∧
    Position.load (Position.clear p) (Position.getstate p) = p :=
  ⟨rfl, rfl, rfl, rfl, rfl, rfl, rfl, rfl, rfl, rfl, rfl⟩
